import Mathlib

/-!
Verification of the temporal-alignment and rolling-statistics pipeline of the
gold-versus-inflation analysis script.  The script's stages are embedded
shallowly: dates are canonical month keys (modelled as day-numbered integers
where day arithmetic matters), metric values are exact rationals, the IEEE
special values produced by `pct_change` are modelled by an explicit `PctVal`
type, and every fallible statistic returns an `Option` whose `none` plays the
role of the script's NaN marker.
-/

/-- A merged record: one month key together with the gold price and the CPI
index value, as produced by the inner merge on the Date column. -/
structure MergedRow where
  date : Int
  price : Rat
  cpi : Rat
deriving DecidableEq, Repr

/-- Embedding of the inner merge on the Date key.  pandas inner-merge semantics:
each left row is paired with every right row carrying the same key (a
cross-product when keys repeat), left order preserved. -/
def mergeInner (gold cpi : List (Int × Rat)) : List MergedRow :=
  gold.flatMap fun p => (cpi.filter fun q => q.1 = p.1).map fun q => ⟨p.1, p.2, q.2⟩

/-- The comparison used by the chronological sort on the Date column. -/
def dateLe (a b : MergedRow) : Prop := a.date ≤ b.date

instance : DecidableRel dateLe := fun a b => inferInstanceAs (Decidable (a.date ≤ b.date))

instance : IsTotal MergedRow dateLe := ⟨fun a b => Int.le_total a.date b.date⟩

instance : IsTrans MergedRow dateLe := ⟨fun _ _ _ h1 h2 => le_trans h1 h2⟩

/-- Embedding of the stable chronological sort on the Date column. -/
def sortByDate (rows : List MergedRow) : List MergedRow :=
  List.insertionSort dateLe rows

/-- The Series Merger stage: inner join on the month key, then sort by date. -/
def mergeSorted (gold cpi : List (Int × Rat)) : List MergedRow :=
  sortByDate (mergeInner gold cpi)

lemma filter_key_eq_nil {k : Int} {cpi : List (Int × Rat)}
    (h : k ∉ cpi.map Prod.fst) : (cpi.filter fun q => q.1 = k) = [] := by
  apply List.filter_eq_nil_iff.mpr
  intro q hq
  simp only [decide_eq_true_eq]
  intro hk
  exact h (List.mem_map.mpr ⟨q, hq, hk⟩)

lemma filter_key_map_const {k : Int} {cpi : List (Int × Rat)}
    (hc : (cpi.map Prod.fst).Nodup) :
    ((cpi.filter fun q => q.1 = k).map fun _ => k)
      = if k ∈ cpi.map Prod.fst then [k] else [] := by
  induction cpi with
  | nil => simp
  | cons q cs ih =>
    simp only [List.map_cons, List.nodup_cons] at hc
    by_cases hqk : q.1 = k
    · subst hqk
      rw [List.filter_cons_of_pos (by simp)]
      rw [filter_key_eq_nil hc.1]
      simp
    · rw [List.filter_cons_of_neg (by simpa using hqk)]
      rw [ih hc.2]
      have hkq : ¬k = q.1 := fun h => hqk h.symm
      by_cases hk : k ∈ List.map Prod.fst cs <;>
        simp [List.mem_cons, hkq, hk]

lemma mergeInner_map_date {gold cpi : List (Int × Rat)}
    (hc : (cpi.map Prod.fst).Nodup) :
    (mergeInner gold cpi).map MergedRow.date
      = (gold.map Prod.fst).filter fun k => k ∈ cpi.map Prod.fst := by
  induction gold with
  | nil => simp [mergeInner]
  | cons p gs ih =>
    simp only [mergeInner, List.flatMap_cons, List.map_append, List.map_map] at ih ⊢
    rw [show (MergedRow.date ∘ fun q : Int × Rat => (⟨p.1, p.2, q.2⟩ : MergedRow))
          = fun _ => p.1 from rfl]
    rw [filter_key_map_const hc, ih]
    by_cases hp : p.1 ∈ cpi.map Prod.fst
    · simp [hp]
    · simp [hp]

lemma mergeInner_keys_nodup {gold cpi : List (Int × Rat)}
    (hg : (gold.map Prod.fst).Nodup) (hc : (cpi.map Prod.fst).Nodup) :
    ((mergeInner gold cpi).map MergedRow.date).Nodup := by
  rw [mergeInner_map_date hc]
  exact hg.filter _

lemma sortByDate_perm (rows : List MergedRow) : List.Perm (sortByDate rows) rows :=
  List.perm_insertionSort dateLe rows

lemma sortByDate_sorted (rows : List MergedRow) :
    List.Sorted dateLe (sortByDate rows) :=
  List.sorted_insertionSort dateLe rows

/-- C1: for any pair of input series keyed by canonical month (no duplicate
keys within a series, any input order), the merged and sorted sequence has
strictly increasing month keys (hence is sorted ascending, with no
duplicates), and its keys are exactly those present in both inputs. -/
theorem mergeSorted_strictly_increasing (gold cpi : List (Int × Rat))
    (hg : (gold.map Prod.fst).Nodup) (hc : (cpi.map Prod.fst).Nodup) :
    ((mergeSorted gold cpi).map MergedRow.date).Pairwise (fun a b => a < b)
      ∧ ∀ k : Int, k ∈ (mergeSorted gold cpi).map MergedRow.date
          ↔ (k ∈ gold.map Prod.fst ∧ k ∈ cpi.map Prod.fst) := by
  have hperm : List.Perm ((mergeSorted gold cpi).map MergedRow.date)
      ((mergeInner gold cpi).map MergedRow.date) :=
    (sortByDate_perm (mergeInner gold cpi)).map MergedRow.date
  constructor
  · have hnd : ((mergeSorted gold cpi).map MergedRow.date).Nodup :=
      (hperm.nodup_iff).mpr (mergeInner_keys_nodup hg hc)
    have hsorted : ((mergeSorted gold cpi).map MergedRow.date).Pairwise (fun a b => a ≤ b) := by
      have := sortByDate_sorted (mergeInner gold cpi)
      exact (List.pairwise_map).mpr this
    have hne : ((mergeSorted gold cpi).map MergedRow.date).Pairwise (fun a b => a ≠ b) := hnd
    exact (hsorted.and hne).imp fun h => lt_of_le_of_ne h.1 h.2
  · intro k
    rw [hperm.mem_iff, mergeInner_map_date hc]
    simp

/-- Witness for C1 at a concrete shuffled input with a shared key set. -/
theorem mergeSorted_strictly_increasing_witness :
    ((mergeSorted [(3, 10), (1, 20), (2, 30)] [(2, 5), (1, 6)]).map
        MergedRow.date).Pairwise (fun a b => a < b) :=
  (mergeSorted_strictly_increasing [(3, 10), (1, 20), (2, 30)] [(2, 5), (1, 6)]
    (by decide) (by decide)).1

/-- The value of a percentage-change cell.  `pct_change` performs a floating
point division, so a zero previous value produces the IEEE special values
(+inf, -inf, or NaN for 0/0) rather than raising; the constructors model
those outcomes exactly. -/
inductive PctVal where
  | num : Rat → PctVal
  | pinf : PctVal
  | ninf : PctVal
  | nan : PctVal
deriving DecidableEq, Repr

/-- Embedding of one cell of `pct_change() * 100`: the percentage change of
`cur` relative to `prev`, with IEEE semantics at a zero previous value. -/
def pct_change (prev cur : Rat) : PctVal :=
  if prev = 0 then
    if 0 < cur then PctVal.pinf else if cur < 0 then PctVal.ninf else PctVal.nan
  else
    PctVal.num ((cur - prev) / prev * 100)

/-- A merged record annotated with the two percentage-change columns
(Inflation_Rate and Gold_Returns). -/
structure AnnRow where
  date : Int
  price : Rat
  cpi : Rat
  inflRate : PctVal
  goldRet : PctVal
deriving DecidableEq, Repr

/-- The annotated row built for a current record and its predecessor. -/
def annPair (pc : MergedRow × MergedRow) : AnnRow :=
  ⟨pc.1.date, pc.1.price, pc.1.cpi,
    pct_change pc.2.cpi pc.1.cpi, pct_change pc.2.price pc.1.price⟩

/-- Annotation of all records after the first, threading the previous record. -/
def annotateFrom (prev : MergedRow) : List MergedRow → List AnnRow
  | [] => []
  | r :: rest => annPair (r, prev) :: annotateFrom r rest

/-- Embedding of the two `pct_change` column assignments: the first record
gets NaN in both new columns, later records the change versus their
predecessor. -/
def annotate : List MergedRow → List AnnRow
  | [] => []
  | r0 :: rest =>
      ⟨r0.date, r0.price, r0.cpi, PctVal.nan, PctVal.nan⟩ :: annotateFrom r0 rest

/-- Embedding of `df.dropna()`: keep exactly the rows whose computed columns
hold no NaN (the base columns are exact rationals and are never NaN here). -/
def dropna (rows : List AnnRow) : List AnnRow :=
  rows.filter fun r => r.inflRate ≠ PctVal.nan ∧ r.goldRet ≠ PctVal.nan

/-- The Return Calculator stage: annotate with percentage changes, then drop
rows containing NaN. -/
def returnCalc (rows : List MergedRow) : List AnnRow :=
  dropna (annotate rows)

lemma annotateFrom_eq (prev : MergedRow) (rows : List MergedRow) :
    annotateFrom prev rows = (rows.zip (prev :: rows)).map annPair := by
  induction rows generalizing prev with
  | nil => rfl
  | cons r rest ih => simp [annotateFrom, List.zip_cons_cons, ih r]

lemma annotate_cons (r0 : MergedRow) (rest : List MergedRow) :
    annotate (r0 :: rest)
      = ⟨r0.date, r0.price, r0.cpi, PctVal.nan, PctVal.nan⟩
          :: (rest.zip (r0 :: rest)).map annPair := by
  simp [annotate, annotateFrom_eq]

lemma zip_tail_get? (rows : List MergedRow) (i : Nat) (prev cur : MergedRow)
    (hp : rows.get? i = some prev) (hc : rows.get? (i + 1) = some cur) :
    (rows.tail.zip rows).get? i = some (cur, prev) := by
  induction rows generalizing i prev cur with
  | nil => simp at hp
  | cons r rest ih =>
    cases i with
    | zero =>
      simp only [List.get?] at hp hc
      cases rest with
      | nil => simp at hc
      | cons c cs =>
        simp only [List.get?] at hc
        injection hp with hp
        injection hc with hc
        subst hp; subst hc
        simp [List.zip_cons_cons]
    | succ i =>
      simp only [List.get?] at hp hc
      cases rest with
      | nil => simp at hp
      | cons c cs =>
        have := ih i prev cur hp hc
        simpa [List.zip_cons_cons] using this

lemma annotate_get?_succ (rows : List MergedRow) (i : Nat) (prev cur : MergedRow)
    (hp : rows.get? i = some prev) (hc : rows.get? (i + 1) = some cur) :
    (annotate rows).get? (i + 1) = some (annPair (cur, prev)) := by
  cases rows with
  | nil => simp at hp
  | cons r0 rest =>
    rw [annotate_cons]
    have hz : (rest.zip (r0 :: rest)).get? i = some (cur, prev) := by
      have := zip_tail_get? (r0 :: rest) i prev cur hp hc
      simpa using this
    rw [List.get?_cons_succ, List.get?_map, hz, Option.map_some']

lemma annotate_length (rows : List MergedRow) :
    (annotate rows).length = rows.length := by
  cases rows with
  | nil => rfl
  | cons r0 rest =>
    rw [annotate_cons]
    simp [List.length_zip]

lemma dropna_annotateFrom (prev : MergedRow) (rows : List MergedRow)
    (h : ∀ r ∈ prev :: rows, r.cpi ≠ 0 ∧ r.price ≠ 0) :
    dropna (annotateFrom prev rows)
      = (rows.zip (prev :: rows)).map (fun pc =>
          ⟨pc.1.date, pc.1.price, pc.1.cpi,
            PctVal.num ((pc.1.cpi - pc.2.cpi) / pc.2.cpi * 100),
            PctVal.num ((pc.1.price - pc.2.price) / pc.2.price * 100)⟩) := by
  induction rows generalizing prev with
  | nil => rfl
  | cons r rs ih =>
    have hprev : prev.cpi ≠ 0 ∧ prev.price ≠ 0 := h prev (by simp)
    have hsub : ∀ s ∈ r :: rs, s.cpi ≠ 0 ∧ s.price ≠ 0 :=
      fun s hs => h s (List.mem_cons_of_mem prev hs)
    rw [show annotateFrom prev (r :: rs) = annPair (r, prev) :: annotateFrom r rs from rfl]
    rw [List.zip_cons_cons, List.map_cons, dropna,
      List.filter_cons_of_pos (by simp [annPair, pct_change, hprev.1, hprev.2])]
    rw [show List.filter (fun r => decide (r.inflRate ≠ PctVal.nan ∧ r.goldRet ≠ PctVal.nan))
          (annotateFrom r rs) = dropna (annotateFrom r rs) from rfl]
    rw [ih r hsub]
    simp [annPair, pct_change, hprev.1, hprev.2]

/-- C5: on a merged sequence whose values are all nonzero, the Return
Calculator outputs exactly the records from the second onward, each annotated
with rate = (current - previous) / previous * 100 for both CPI and price; the
first record is excluded entirely, so the output is one record shorter. -/
theorem returnCalc_formula (rows : List MergedRow)
    (h : ∀ r ∈ rows, r.cpi ≠ 0 ∧ r.price ≠ 0) :
    returnCalc rows
        = (rows.tail.zip rows).map (fun pc =>
            ⟨pc.1.date, pc.1.price, pc.1.cpi,
              PctVal.num ((pc.1.cpi - pc.2.cpi) / pc.2.cpi * 100),
              PctVal.num ((pc.1.price - pc.2.price) / pc.2.price * 100)⟩)
      ∧ (returnCalc rows).length = rows.length - 1 := by
  have key : returnCalc rows
      = (rows.tail.zip rows).map (fun pc =>
          ⟨pc.1.date, pc.1.price, pc.1.cpi,
            PctVal.num ((pc.1.cpi - pc.2.cpi) / pc.2.cpi * 100),
            PctVal.num ((pc.1.price - pc.2.price) / pc.2.price * 100)⟩) := by
    cases rows with
    | nil => rfl
    | cons r0 rest =>
      rw [returnCalc, show annotate (r0 :: rest)
            = (⟨r0.date, r0.price, r0.cpi, PctVal.nan, PctVal.nan⟩ : AnnRow)
                :: annotateFrom r0 rest from rfl]
      rw [dropna, List.filter_cons_of_neg (by simp)]
      rw [show List.filter (fun r => decide (r.inflRate ≠ PctVal.nan ∧ r.goldRet ≠ PctVal.nan))
            (annotateFrom r0 rest) = dropna (annotateFrom r0 rest) from rfl]
      exact dropna_annotateFrom r0 rest h
  refine ⟨key, ?_⟩
  rw [key]
  simp only [List.length_map, List.length_zip, List.length_tail]
  omega

/-- Witness for C5 on the spec's three-month scenario. -/
theorem returnCalc_formula_witness :
    returnCalc [⟨0, 100, 100⟩, ⟨1, 110, 102⟩, ⟨2, 99, 103⟩]
      = [⟨1, 110, 102, PctVal.num 2, PctVal.num 10⟩,
         ⟨2, 99, 103, PctVal.num ((103 - 102) / 102 * 100),
            PctVal.num (-10)⟩] := by
  have := (returnCalc_formula [⟨0, 100, 100⟩, ⟨1, 110, 102⟩, ⟨2, 99, 103⟩]
    (by decide)).1
  rw [this]
  simp only [List.tail_cons, List.zip_cons_cons, List.zip_nil_left, List.map_cons,
    List.map_nil]
  norm_num

/-- C6 counterexample: with a zero previous CPI value and a nonzero current
one, the Return Calculator produces +infinity — a defined, non-NaN value that
stays in the output — rather than marking the cell undefined. -/
theorem returnCalc_zero_prev_counterexample :
    returnCalc [⟨0, 10, 0⟩, ⟨1, 11, 1⟩]
        = [⟨1, 11, 1, PctVal.pinf, PctVal.num 10⟩]
      ∧ PctVal.pinf ≠ PctVal.nan := by
  constructor
  · norm_num [returnCalc, annotate, annotateFrom, annPair, pct_change, dropna,
      List.filter]
    rfl
  · decide

/-- C6 (amended): a zero previous value never aborts the computation — the
annotation stage still produces a full-length output and every other cell is
still computed from its own pair of records; the affected percentage-change
cell is NaN (undefined, later dropped) exactly when the current value is also
zero, and otherwise is the infinity of the current value's sign, which is
neither an undefined marker nor zero. -/
theorem annotate_zero_prev (rows : List MergedRow) (i : Nat) (prev cur : MergedRow)
    (hp : rows.get? i = some prev) (hc : rows.get? (i + 1) = some cur)
    (h0 : prev.cpi = 0) :
    (annotate rows).get? (i + 1)
        = some ⟨cur.date, cur.price, cur.cpi,
            (if 0 < cur.cpi then PctVal.pinf
             else if cur.cpi < 0 then PctVal.ninf else PctVal.nan),
            pct_change prev.price cur.price⟩
      ∧ (annotate rows).length = rows.length
      ∧ ∀ j prev' cur', rows.get? j = some prev' → rows.get? (j + 1) = some cur' →
          (annotate rows).get? (j + 1) = some (annPair (cur', prev')) := by
  refine ⟨?_, annotate_length rows, fun j prev' cur' hp' hc' =>
    annotate_get?_succ rows j prev' cur' hp' hc'⟩
  rw [annotate_get?_succ rows i prev cur hp hc]
  simp [annPair, pct_change, h0]

/-- Witness for C6 (amended) at a two-record input with a zero previous CPI. -/
theorem annotate_zero_prev_witness :
    (annotate [⟨0, 10, 0⟩, ⟨1, 11, 1⟩]).get? 1
      = some ⟨1, 11, 1,
          (if (0 : Rat) < 1 then PctVal.pinf
           else if (1 : Rat) < 0 then PctVal.ninf else PctVal.nan),
          pct_change 10 11⟩ :=
  (annotate_zero_prev [⟨0, 10, 0⟩, ⟨1, 11, 1⟩] 0 ⟨0, 10, 0⟩ ⟨1, 11, 1⟩
    rfl rfl rfl).1

/-- C10: the Return Calculator's final output is exactly the annotated merged
records in which every computed column is defined: every emitted record is
NaN-free, and every NaN-free annotated record is emitted (records with an
undefined value in any computed column — not only the leading one — are
removed). -/
theorem returnCalc_dropna_characterization (rows : List MergedRow) :
    (∀ r ∈ returnCalc rows, r.inflRate ≠ PctVal.nan ∧ r.goldRet ≠ PctVal.nan)
      ∧ (∀ r ∈ annotate rows,
          r.inflRate ≠ PctVal.nan → r.goldRet ≠ PctVal.nan → r ∈ returnCalc rows)
      ∧ (∀ r ∈ returnCalc rows, r ∈ annotate rows) := by
  refine ⟨?_, ?_, ?_⟩
  · intro r hr
    have := List.of_mem_filter hr
    simpa using this
  · intro r hr h1 h2
    exact List.mem_filter.mpr ⟨hr, by simpa using ⟨h1, h2⟩⟩
  · intro r hr
    exact List.mem_of_mem_filter hr

/-- Witness for C10: a NaN-free annotated record of a concrete input is kept. -/
theorem returnCalc_dropna_characterization_witness :
    (⟨1, 110, 102, PctVal.num 2, PctVal.num 10⟩ : AnnRow)
      ∈ returnCalc [⟨0, 100, 100⟩, ⟨1, 110, 102⟩] :=
  (returnCalc_dropna_characterization [⟨0, 100, 100⟩, ⟨1, 110, 102⟩]).2.1
    ⟨1, 110, 102, PctVal.num 2, PctVal.num 10⟩
    (by norm_num [annotate, annotateFrom, annPair, pct_change]) (by decide) (by decide)

/-- Sum of the inflation values (x) of a list of (inflation, return) pairs. -/
def sumX (pts : List (Rat × Rat)) : Rat := (pts.map fun p => p.1).sum

/-- Sum of the asset-return values (y). -/
def sumY (pts : List (Rat × Rat)) : Rat := (pts.map fun p => p.2).sum

/-- Sum of squared inflation values. -/
def sumXX (pts : List (Rat × Rat)) : Rat := (pts.map fun p => p.1 * p.1).sum

/-- Sum of squared return values. -/
def sumYY (pts : List (Rat × Rat)) : Rat := (pts.map fun p => p.2 * p.2).sum

/-- Sum of the products of paired values. -/
def sumXY (pts : List (Rat × Rat)) : Rat := (pts.map fun p => p.1 * p.2).sum

/-- The normal-equations denominator of the OLS fit with an intercept:
n * sum(x^2) - (sum x)^2.  It vanishes exactly on a degenerate design
(constant inflation within the sample). -/
def olsDen (pts : List (Rat × Rat)) : Rat :=
  (pts.length : Rat) * sumXX pts - sumX pts * sumX pts

/-- The slope of the windowed OLS fit of return on inflation with an
intercept, as recorded by `rolling_beta`; `none` models the NaN appended when
the window's fit is degenerate (the library call path then raises inside the
`try` and the bare `except` appends NaN). -/
def olsSlope (pts : List (Rat × Rat)) : Option Rat :=
  if olsDen pts = 0 then none
  else some (((pts.length : Rat) * sumXY pts - sumX pts * sumY pts) / olsDen pts)

/-- The static OLS fit of the Static Statistics Engine (intercept and slope of
return on inflation).  The code applies `sm.OLS(...).fit()` directly, with no
minimum-sample-size check; the fit yields a result whenever the design is
non-degenerate.  The p-value and R-squared it also reports are real-valued
library outputs not needed by any claim. -/
def olsFit (pts : List (Rat × Rat)) : Option (Rat × Rat) :=
  if olsDen pts = 0 then none
  else
    some
      ((sumY pts - ((pts.length : Rat) * sumXY pts - sumX pts * sumY pts) / olsDen pts
          * sumX pts) / (pts.length : Rat),
        ((pts.length : Rat) * sumXY pts - sumX pts * sumY pts) / olsDen pts)

/-- The window of width `w` starting at offset `i` (`inflation.iloc[i:i+window]`). -/
def windowAt (pts : List (Rat × Rat)) (w i : Nat) : List (Rat × Rat) :=
  (pts.drop i).take w

/-- Embedding of `rolling_beta`: NaN markers for the first `w - 1` positions,
then one OLS slope (or NaN) per window offset.  The number of windows is
`len - w + 1` clamped at zero, exactly as Python's `range(len - window + 1)`. -/
def rolling_beta (pts : List (Rat × Rat)) (w : Nat) : List (Option Rat) :=
  List.replicate (w - 1) none
    ++ (List.range (pts.length + 1 - w)).map fun i => olsSlope (windowAt pts w i)

/-- The exact content of a Pearson correlation: the numerator
n*sum(xy) - sum(x)*sum(y) and the two variance terms n*sum(x^2) - (sum x)^2
and n*sum(y^2) - (sum y)^2.  The floating-point correlation is the fixed
function num / (sqrt sxx * sqrt syy) of this triple, so two correlations
computed from equal triples are equal; `none` models the NaN produced when
either variance term vanishes. -/
def pearson (pts : List (Rat × Rat)) : Option (Rat × Rat × Rat) :=
  if olsDen pts = 0 ∨ (pts.length : Rat) * sumYY pts - sumY pts * sumY pts = 0 then none
  else
    some ((pts.length : Rat) * sumXY pts - sumX pts * sumY pts,
      olsDen pts, (pts.length : Rat) * sumYY pts - sumY pts * sumY pts)

/-- Embedding of `Series.rolling(window=w).corr(other)`: one output per input
position; a position with a full window of history gets the correlation of the
`w` pairs ending there, earlier positions get NaN. -/
def rollingCorr (pts : List (Rat × Rat)) (w : Nat) : List (Option (Rat × Rat × Rat)) :=
  (List.range pts.length).map fun i =>
    if w ≤ i + 1 then pearson (windowAt pts w (i + 1 - w)) else none

lemma sumX_const {pts : List (Rat × Rat)} {c : Rat}
    (h : ∀ p ∈ pts, p.1 = c) : sumX pts = (pts.length : Rat) * c := by
  induction pts with
  | nil => simp [sumX]
  | cons p ps ih =>
    have hp : p.1 = c := h p (by simp)
    have hps := ih fun q hq => h q (List.mem_cons_of_mem p hq)
    simp only [sumX, List.map_cons, List.sum_cons] at hps ⊢
    rw [hp, hps]
    simp only [List.length_cons]
    push_cast
    ring

lemma sumXX_const {pts : List (Rat × Rat)} {c : Rat}
    (h : ∀ p ∈ pts, p.1 = c) : sumXX pts = (pts.length : Rat) * (c * c) := by
  induction pts with
  | nil => simp [sumXX]
  | cons p ps ih =>
    have hp : p.1 = c := h p (by simp)
    have hps := ih fun q hq => h q (List.mem_cons_of_mem p hq)
    simp only [sumXX, List.map_cons, List.sum_cons] at hps ⊢
    rw [hp, hps]
    simp only [List.length_cons]
    push_cast
    ring

lemma olsDen_const {pts : List (Rat × Rat)} {c : Rat}
    (h : ∀ p ∈ pts, p.1 = c) : olsDen pts = 0 := by
  rw [olsDen, sumX_const h, sumXX_const h]
  ring

lemma rolling_beta_get?_window (pts : List (Rat × Rat)) (w j : Nat)
    (hw : 0 < w) (hj : j + w ≤ pts.length) :
    (rolling_beta pts w).get? (j + w - 1) = some (olsSlope (windowAt pts w j)) := by
  rw [rolling_beta, List.get?_append_right (by simp; omega)]
  rw [List.length_replicate, show j + w - 1 - (w - 1) = j by omega]
  rw [List.get?_eq_getElem?, List.getElem?_map, List.getElem?_range (by omega)]
  rfl

/-- C2: a rolling-beta window whose inflation values are constant (zero
variance) gets an explicit undefined marker — `none`, not a slope of zero —
at its output position, while the full computation still runs: the output
covers the whole input and every full-window position carries the result
computed from its own window, unaffected by the degenerate one. -/
theorem rolling_beta_degenerate_window (pts : List (Rat × Rat)) (w i : Nat) (c : Rat)
    (hw : 0 < w) (hiw : i + w ≤ pts.length)
    (hconst : ∀ p ∈ windowAt pts w i, p.1 = c) :
    (rolling_beta pts w).get? (i + w - 1) = some none
      ∧ (rolling_beta pts w).get? (i + w - 1) ≠ some (some 0)
      ∧ (rolling_beta pts w).length = pts.length
      ∧ ∀ j, j + w ≤ pts.length →
          (rolling_beta pts w).get? (j + w - 1) = some (olsSlope (windowAt pts w j)) := by
  have hnone : olsSlope (windowAt pts w i) = none := by
    rw [olsSlope, if_pos (olsDen_const hconst)]
  have hval := rolling_beta_get?_window pts w i hw hiw
  rw [hnone] at hval
  refine ⟨hval, by rw [hval]; simp, ?_, fun j hj => rolling_beta_get?_window pts w j hw hj⟩
  rw [rolling_beta]
  simp only [List.length_append, List.length_replicate, List.length_map,
    List.length_range]
  omega

/-- Witness for C2: window width 2 over three pairs with constant inflation in
the first window. -/
theorem rolling_beta_degenerate_window_witness :
    (rolling_beta [(1, 2), (1, 3), (1, 5)] 2).get? 1 = some none :=
  (rolling_beta_degenerate_window [(1, 2), (1, 3), (1, 5)] 2 0 1
    (by decide) (by decide) (by decide)).1

/-- C3 counterexample: on an input of length 1 with window 12, `rolling_beta`
returns the 11 leading NaN markers and no windows, so its output length is 11,
not the input length 1. -/
theorem rolling_beta_length_counterexample :
    (rolling_beta [(1, 2)] 12).length = 11
      ∧ ([((1 : Rat), (2 : Rat))] : List (Rat × Rat)).length = 1
      ∧ (11 : Nat) ≠ 1 := by
  refine ⟨?_, rfl, by decide⟩
  rw [rolling_beta]
  simp

/-- C3 (amended): provided the input holds at least W - 1 pairs, the rolling
correlation and the rolling beta each have output length equal to the input
length, with undefined markers at the first W - 1 positions. -/
theorem rolling_outputs_length (pts : List (Rat × Rat)) (w : Nat)
    (hw : 0 < w) (hn : w - 1 ≤ pts.length) :
    (rollingCorr pts w).length = pts.length
      ∧ (rolling_beta pts w).length = pts.length
      ∧ (∀ i, i < w - 1 → (rollingCorr pts w).get? i = some none)
      ∧ (∀ i, i < w - 1 → (rolling_beta pts w).get? i = some none) := by
  refine ⟨by simp [rollingCorr], ?_, ?_, ?_⟩
  · rw [rolling_beta]
    simp only [List.length_append, List.length_replicate, List.length_map,
      List.length_range]
    omega
  · intro i hi
    rw [rollingCorr, List.get?_eq_getElem?, List.getElem?_map,
      List.getElem?_range (by omega)]
    simp only [Option.map_some']
    rw [if_neg (by omega)]
  · intro i hi
    rw [rolling_beta, List.get?_eq_getElem?, List.getElem?_append_left (by simpa using hi),
      List.getElem?_replicate, if_pos (by simpa using hi)]

/-- Witness for C3 (amended) at window 2 over two pairs. -/
theorem rolling_outputs_length_witness :
    (rollingCorr [(1, 2), (3, 4)] 2).length = 2 :=
  (rolling_outputs_length [(1, 2), (3, 4)] 2 (by decide) (by decide)).1

/-- C9: on a series whose length is exactly the window width, the last rolling
correlation value is the Pearson correlation of the whole series, i.e. the
static whole-sample correlation of that same W-length series. -/
theorem rollingCorr_last_eq_static (pts : List (Rat × Rat)) (w : Nat)
    (hw : 0 < w) (hlen : pts.length = w) :
    (rollingCorr pts w).getLast? = some (pearson pts) := by
  rw [rollingCorr, hlen]
  rw [show w = (w - 1) + 1 by omega, List.range_succ, List.map_append]
  rw [List.map_singleton, List.getLast?_concat]
  rw [if_pos (by omega)]
  rw [show w - 1 + 1 - (w - 1 + 1) = 0 by omega]
  rw [windowAt, List.drop_zero, show w - 1 + 1 = pts.length by omega, List.take_length]

/-- Witness for C9 at a concrete two-pair series with window 2. -/
theorem rollingCorr_last_eq_static_witness :
    (rollingCorr [(0, 0), (1, 1)] 2).getLast? = some (pearson [(0, 0), (1, 1)]) :=
  rollingCorr_last_eq_static [(0, 0), (1, 1)] 2 (by decide) (by decide)

/-- C7 counterexample: the static OLS stage performs no minimum-sample-size
check — on just two pairs with distinct inflation values it returns a
regression result (intercept 0, slope 2) instead of failing. -/
theorem olsFit_two_points_counterexample :
    olsFit [(0, 0), (1, 2)] = some (0, 2)
      ∧ ([((0 : Rat), (0 : Rat)), ((1 : Rat), (2 : Rat))] : List (Rat × Rat)).length < 3 := by
  constructor
  · norm_num [olsFit, olsDen, sumX, sumY, sumXX, sumXY]
  · decide

/-- C7 (amended): the static OLS fit applies no sample-size requirement and
raises no error for small samples; it returns a regression result exactly when
the normal-equations denominator is nonzero (a non-degenerate design), which
already happens for two pairs with distinct inflation values. -/
theorem olsFit_isSome_iff (pts : List (Rat × Rat)) :
    (olsFit pts).isSome = true ↔ olsDen pts ≠ 0 := by
  by_cases h : olsDen pts = 0 <;> simp [olsFit, h]

/-- Embedding of the gap check: consecutive differences of the sorted Date
column (in days), first difference dropped, warn when any exceeds 50 days.
The warning is a pure signal — nothing downstream branches on it, so
processing continues in either case. -/
def gapWarning (dates : List Int) : Bool :=
  ((dates.zip dates.tail).map fun p => p.2 - p.1).any fun d => 50 < d

/-- C8: the gap warning fires exactly when some pair of consecutive month keys
differs by more than 50 days; in particular a 70-day gap fires it and a
31-day gap does not. -/
theorem gapWarning_iff (dates : List Int) :
    (gapWarning dates = true ↔ ∃ p ∈ dates.zip dates.tail, 50 < p.2 - p.1)
      ∧ gapWarning [0, 70] = true
      ∧ gapWarning [0, 31] = false := by
  refine ⟨?_, by decide, by decide⟩
  simp only [gapWarning, List.any_eq_true, List.mem_map, decide_eq_true_eq]
  constructor
  · rintro ⟨x, ⟨p, hp, rfl⟩, h⟩
    exact ⟨p, hp, h⟩
  · rintro ⟨p, hp, h⟩
    exact ⟨p.2 - p.1, ⟨p, hp, rfl⟩, h⟩

/-- A calendar date as parsed from a raw date token. -/
structure CalDate where
  year : Int
  month : Nat
  day : Nat
deriving DecidableEq, Repr

/-- Truncation of a date to the first day of its calendar month, the
`datetime64[M]` normalization. -/
def truncMonth (d : CalDate) : CalDate :=
  ⟨d.year, d.month, 1⟩

/-- Parsing an entire series with one fixed format: the library call raises
(here: returns `none`) as soon as any single entry fails to parse. -/
def parseAll (fmt : String → Option CalDate) (series : List String) :
    Option (List CalDate) :=
  series.mapM fmt

/-- The for/else loop over candidate formats: try each format on the whole
series in order, keep the first full success, fall through otherwise. -/
def tryFormats : List (String → Option CalDate) → List String → Option (List CalDate)
  | [], _ => none
  | f :: rest, series =>
    match parseAll f series with
    | some ds => some ds
    | none => tryFormats rest series

/-- The Date Normalizer: ordered format candidates with a generic-inference
fallback, then truncation of every parsed date to its month start. -/
def normalizeDates (fmts : List (String → Option CalDate))
    (fallback : String → CalDate) (series : List String) : List CalDate :=
  (match tryFormats fmts series with
   | some ds => ds
   | none => series.map fallback).map truncMonth

lemma tryFormats_of_first (pre : List (String → Option CalDate))
    (f : String → Option CalDate) (post : List (String → Option CalDate))
    (series : List String) (ds : List CalDate)
    (hpre : ∀ g ∈ pre, parseAll g series = none)
    (hf : parseAll f series = some ds) :
    tryFormats (pre ++ f :: post) series = some ds := by
  induction pre with
  | nil => simp [tryFormats, hf]
  | cons g gs ih =>
    have hg : parseAll g series = none := hpre g (by simp)
    simp only [List.cons_append, tryFormats, hg]
    exact ih fun g' h' => hpre g' (List.mem_cons_of_mem g h')

lemma tryFormats_of_none (fmts : List (String → Option CalDate))
    (series : List String) (hall : ∀ g ∈ fmts, parseAll g series = none) :
    tryFormats fmts series = none := by
  induction fmts with
  | nil => rfl
  | cons g gs ih =>
    have hg : parseAll g series = none := hall g (by simp)
    simp only [tryFormats, hg]
    exact ih fun g' h' => hall g' (List.mem_cons_of_mem g h')

/-- C4: the Date Normalizer tries the candidate formats in their fixed order
and uses the first one that parses the entire series (any earlier format
having failed on some entry); if every candidate fails it falls back to the
generic inference applied entrywise; and in all cases every output date is
truncated to the first day of its month. -/
theorem normalizeDates_spec (fmts : List (String → Option CalDate))
    (fallback : String → CalDate) (series : List String) :
    (∀ pre f post ds, fmts = pre ++ f :: post →
        (∀ g ∈ pre, parseAll g series = none) → parseAll f series = some ds →
        normalizeDates fmts fallback series = ds.map truncMonth)
      ∧ ((∀ g ∈ fmts, parseAll g series = none) →
          normalizeDates fmts fallback series = (series.map fallback).map truncMonth)
      ∧ ∀ d ∈ normalizeDates fmts fallback series, d.day = 1 := by
  refine ⟨?_, ?_, ?_⟩
  · intro pre f post ds hsplit hpre hf
    rw [normalizeDates, hsplit, tryFormats_of_first pre f post series ds hpre hf]
  · intro hall
    rw [normalizeDates, tryFormats_of_none fmts series hall]
  · intro d hd
    rw [normalizeDates] at hd
    rcases List.mem_map.mp hd with ⟨x, _, hx⟩
    rw [← hx]
    rfl

/-- Witness for C4: the first format fails on the sample token, the second
parses it, and the result is snapped to the month start. -/
theorem normalizeDates_spec_witness :
    normalizeDates [fun _ => none, fun _ => some ⟨2023, 7, 15⟩]
        (fun _ => ⟨1970, 1, 1⟩) ["Jul 2023"] = [⟨2023, 7, 1⟩] := by
  have h := (normalizeDates_spec [fun _ => none, fun _ => some ⟨2023, 7, 15⟩]
      (fun _ => ⟨1970, 1, 1⟩) ["Jul 2023"]).1
    [fun _ => none] (fun _ => some ⟨2023, 7, 15⟩) [] [⟨2023, 7, 15⟩]
    rfl (by intro g hg; rw [List.mem_singleton.mp hg]; rfl) rfl
  rw [h]
  rfl
